import Mathlib

/-!
Verification of the recursive power-set generator `src/C++/subsets.cpp`.

The C++ program consists of one recursive function

  void generateSubsets(vector<int>& nums, int index,
                       vector<int>& current, vector<vector<int>>& result)

and a `main` driver that runs it on the hardcoded input `[1, 2, 3]` and
prints every generated subset.

Shallow embedding choices:
* `vector<int>` becomes `List Int`; `push_back` is `· ++ [x]`, `pop_back`
  is `List.dropLast`, and `result.push_back(current)` snapshots the
  current path as `result ++ [current]`.
* The mutable reference parameters `current` and `result` are threaded
  explicitly: the embedded function returns the final contents of both.
* `nums[index]` becomes the fallible access `nums[index]?`; an
  out-of-bounds access surfaces as `none`.
* The C++ recursion has no structural termination measure visible to
  Lean (for `index > nums.size()` the C++ code would recurse forever),
  so the embedding is indexed by a fuel argument modelling the available
  call-stack depth: each recursive call consumes one unit, and `none`
  also signals fuel exhaustion.  Theorems below show that fuel
  `nums.length - index` is exactly the recursion depth needed.
-/

/-- Embedding of `generateSubsets` from `src/C++/subsets.cpp`
(lines 4-15).  Arguments after the fuel mirror the C++ parameter list;
the returned pair is the final state of `(current, result)`. -/
def generateSubsets : Nat → List Int → Nat → List Int → List (List Int) →
    Option (List Int × List (List Int))
  | fuel, nums, index, current, result =>
    if index = nums.length then
      some (current, result ++ [current])
    else
      match fuel with
      | 0 => none
      | fuel' + 1 =>
        match generateSubsets fuel' nums (index + 1) current result with
        | none => none
        | some (c1, r1) =>
          match nums[index]? with
          | none => none
          | some x =>
            match generateSubsets fuel' nums (index + 1) (c1 ++ [x]) r1 with
            | none => none
            | some (c2, r2) => some (c2.dropLast, r2)

/-- The top-level call made by `main` (line 22 of `subsets.cpp`):
index 0, empty path buffer, empty result collection.  Fuel
`nums.length` is the exact recursion depth of that call. -/
def runGenerate (nums : List Int) : Option (List Int × List (List Int)) :=
  generateSubsets nums.length nums 0 [] []

/-- Closed-form description of the subsets the recursion emits for a
remaining suffix of the input, in emission order: the exclude branch of
the head element runs first, then the include branch. -/
def subsetsList : List Int → List (List Int)
  | [] => [[]]
  | x :: xs => subsetsList xs ++ (subsetsList xs).map (fun s => x :: s)

theorem subsetsList_length (xs : List Int) :
    (subsetsList xs).length = 2 ^ xs.length := by
  induction xs with
  | nil => rfl
  | cons x xs ih =>
    simp [subsetsList, ih, Nat.pow_succ, Nat.two_mul, Nat.mul_comm]

/-- Main computation lemma: with `index ≤ nums.length` and fuel at
least `nums.length - index`, `generateSubsets` succeeds, restores the
path buffer, and appends exactly the subsets of the remaining suffix
(each prefixed by the current path) to the result collection. -/
theorem generateSubsets_eq (fuel : Nat) :
    ∀ (nums : List Int) (index : Nat) (current : List Int)
      (result : List (List Int)),
      index ≤ nums.length → nums.length - index ≤ fuel →
      generateSubsets fuel nums index current result =
        some (current,
          result ++ (subsetsList (nums.drop index)).map (fun s => current ++ s)) := by
  induction fuel with
  | zero =>
    intro nums index current result hle hf
    have hidx : index = nums.length := by omega
    simp [generateSubsets, hidx, List.drop_length, subsetsList]
  | succ fuel ih =>
    intro nums index current result hle hf
    by_cases hidx : index = nums.length
    · simp [generateSubsets, hidx, List.drop_length, subsetsList]
    · have hlt : index < nums.length := lt_of_le_of_ne hle hidx
      rw [generateSubsets]
      simp only [hidx, if_false]
      rw [ih nums (index + 1) current result (by omega) (by omega)]
      rw [List.getElem?_eq_getElem hlt]
      dsimp only
      rw [ih nums (index + 1)
        (current ++ [nums[index]])
        (result ++ (subsetsList (nums.drop (index + 1))).map (fun s => current ++ s))
        (by omega) (by omega)]
      have hdrop : nums.drop index = nums[index] :: nums.drop (index + 1) :=
        List.drop_eq_getElem_cons hlt
      rw [hdrop]
      simp only [subsetsList, List.map_append, List.map_map, List.dropLast_concat,
        Option.some.injEq, Prod.mk.injEq, List.append_assoc, Function.comp]
      refine ⟨trivial, ?_⟩
      congr 1

/-- The top-level call of `main` returns the fully unwound (empty) path
buffer together with the closed-form subset list. -/
theorem runGenerate_eq (nums : List Int) :
    runGenerate nums = some ([], subsetsList nums) := by
  have h := generateSubsets_eq nums.length nums 0 [] [] (Nat.zero_le _) (by omega)
  simpa [runGenerate] using h

theorem mem_subsetsList_sublist {xs : List Int} {s : List Int}
    (h : s ∈ subsetsList xs) : s.Sublist xs := by
  induction xs generalizing s with
  | nil =>
    simp [subsetsList] at h
    simp [h]
  | cons x xs ih =>
    simp only [subsetsList, List.mem_append, List.mem_map] at h
    rcases h with h | ⟨t, ht, rfl⟩
    · exact (ih h).cons x
    · exact (ih ht).cons₂ x

theorem subsetsList_nodup {xs : List Int} (h : xs.Nodup) :
    (subsetsList xs).Nodup := by
  induction xs with
  | nil => simp [subsetsList]
  | cons x xs ih =>
    rcases List.nodup_cons.mp h with ⟨hx, hxs⟩
    have hnd := ih hxs
    refine List.Nodup.append hnd (hnd.map List.cons_injective) ?_
    intro s hs hsmap
    rcases List.mem_map.mp hsmap with ⟨t, _, rfl⟩
    have hmem : x ∈ xs := (mem_subsetsList_sublist hs).mem (List.mem_cons_self x t)
    exact hx hmem

theorem count_nil_subsetsList (xs : List Int) :
    (subsetsList xs).count [] = 1 := by
  induction xs with
  | nil => rfl
  | cons x xs ih =>
    have hz : ((subsetsList xs).map (fun s => x :: s)).count [] = 0 := by
      rw [List.count_eq_zero]
      intro hmem
      rcases List.mem_map.mp hmem with ⟨t, _, habs⟩
      exact List.cons_ne_nil x t habs
    simp [subsetsList, List.count_append, ih, hz]

theorem count_self_subsetsList (xs : List Int) :
    (subsetsList xs).count xs = 1 := by
  induction xs with
  | nil => rfl
  | cons x xs ih =>
    have hz : (subsetsList xs).count (x :: xs) = 0 := by
      rw [List.count_eq_zero]
      intro hmem
      have hlen := (mem_subsetsList_sublist hmem).length_le
      simp at hlen
    have hmap : ∀ (l : List (List Int)) (t : List Int),
        (l.map (fun s => x :: s)).count (x :: t) = l.count t := by
      intro l t
      induction l with
      | nil => rfl
      | cons a l ihl => simp [List.count_cons, ihl, beq_iff_eq]
    simp [subsetsList, List.count_append, hz, hmap, ih]

/-- With less fuel than the remaining recursion depth, the embedded
call runs out of stack and signals `none`: fuel `nums.length - index`
is not merely sufficient but necessary. -/
theorem generateSubsets_none (fuel : Nat) :
    ∀ (nums : List Int) (index : Nat) (current : List Int)
      (result : List (List Int)),
      fuel < nums.length - index →
      generateSubsets fuel nums index current result = none := by
  induction fuel with
  | zero =>
    intro nums index current result h
    have hne : index ≠ nums.length := by omega
    simp [generateSubsets, hne]
  | succ fuel ih =>
    intro nums index current result h
    have hne : index ≠ nums.length := by omega
    rw [generateSubsets]
    simp only [hne, if_false]
    rw [ih nums (index + 1) current result (by omega)]

/-- Rendering of one subset by the print loop of `main`
(lines 26-28 of `subsets.cpp`): an opening brace and a space, each
element followed by a space, then the closing brace and a newline. -/
def renderSubset (s : List Int) : String :=
  "\x7b " ++ String.join (s.map (fun x => toString x ++ " ")) ++ "\x7d\n"

/-- Full standard output of `main`: the header line, then one rendered
line per subset of the hardcoded input `[1, 2, 3]`, in result order. -/
def mainOutput : String :=
  "All subsets:\n" ++
    String.join ((((runGenerate [1, 2, 3]).getD ([], [])).2).map renderSubset)

/-- C1: for every input sequence of length n, the top-level call of
`generateSubsets` (index 0, empty path buffer, empty result collection)
leaves the result collection with exactly `2 ^ n` subsets; in
particular the empty input yields exactly the one-element collection
containing the empty subset. -/
theorem subset_count_pow_two :
    (∀ nums : List Int, ∃ r,
        runGenerate nums = some ([], r) ∧ r.length = 2 ^ nums.length) ∧
    runGenerate [] = some ([], [[]]) :=
  ⟨fun nums => ⟨subsetsList nums, runGenerate_eq nums, subsetsList_length nums⟩,
    by decide⟩

/-- C2: on the input `[1, 2, 3]` the result collection is, in exact
order, `[], [3], [2], [2, 3], [1], [1, 3], [1, 2], [1, 2, 3]` — the
enumeration order produced by the exclude-first-then-include choice at
each index. -/
theorem example_enumeration_order :
    runGenerate [1, 2, 3] =
      some ([], [[], [3], [2], [2, 3], [1], [1, 3], [1, 2], [1, 2, 3]]) := by
  decide

/-- C3: every subset placed in the result collection by the top-level
call is a sub-sequence (`List.Sublist`) of the input: its elements come
from the input and keep their relative order. -/
theorem subsets_are_sublists (nums : List Int) (r : List (List Int))
    (h : runGenerate nums = some ([], r)) :
    ∀ s ∈ r, s.Sublist nums := by
  intro s hs
  rw [runGenerate_eq] at h
  have hr : subsetsList nums = r := by simpa using h
  rw [← hr] at hs
  exact mem_subsetsList_sublist hs

/-- Witness for C3 at the concrete input `[1, 2, 3]` and the concrete
member `[1, 3]` of its result collection. -/
theorem subsets_are_sublists_witness :
    List.Sublist ([1, 3] : List Int) [1, 2, 3] :=
  subsets_are_sublists [1, 2, 3]
    [[], [3], [2], [2, 3], [1], [1, 3], [1, 2], [1, 2, 3]]
    (by decide) [1, 3] (by decide)

/-- C4 counterexample: on the input `[1, 1]` (duplicate elements are
explicitly valid input) the result collection contains the subset `[1]`
twice, so the subsets are not pairwise distinct as integer sequences. -/
theorem subsets_not_distinct_on_duplicate_input :
    runGenerate [1, 1] = some ([], [[], [1], [1], [1, 1]]) ∧
    ¬ (([[], [1], [1], [1, 1]] : List (List Int)).Nodup) := by
  decide

/-- C4 amended: when the input sequence itself has pairwise distinct
elements, the subsets in the result collection are pairwise distinct as
integer sequences. -/
theorem subsets_distinct_of_nodup_input (nums : List Int)
    (h : nums.Nodup) :
    ∃ r, runGenerate nums = some ([], r) ∧ r.Nodup :=
  ⟨subsetsList nums, runGenerate_eq nums, subsetsList_nodup h⟩

/-- Witness for the amended C4 at the concrete input `[1, 2, 3]`. -/
theorem subsets_distinct_of_nodup_input_witness :
    ∃ r, runGenerate [1, 2, 3] = some ([], r) ∧ r.Nodup :=
  subsets_distinct_of_nodup_input [1, 2, 3] (by decide)

/-- C5: for every input sequence, the empty sequence and the full input
sequence each occur exactly once in the result collection of the
top-level call. -/
theorem empty_and_full_appear_once (nums : List Int) :
    ∃ r, runGenerate nums = some ([], r) ∧
      r.count [] = 1 ∧ r.count nums = 1 :=
  ⟨subsetsList nums, runGenerate_eq nums,
    count_nil_subsetsList nums, count_self_subsetsList nums⟩

/-- C6: every call of `generateSubsets` (with enough stack for its
remaining depth) returns the path buffer exactly as it received it —
the include branch undoes its append with a remove-last — and only
extends the result collection; consequently the top-level call, which
starts with an empty buffer, ends with an empty buffer. -/
theorem path_buffer_restored (nums : List Int) (index : Nat)
    (current : List Int) (result : List (List Int)) (fuel : Nat)
    (h1 : index ≤ nums.length) (h2 : nums.length - index ≤ fuel) :
    (∃ extension, generateSubsets fuel nums index current result =
        some (current, result ++ extension)) ∧
    ∃ r, runGenerate nums = some ([], r) :=
  ⟨⟨(subsetsList (nums.drop index)).map (fun s => current ++ s),
      generateSubsets_eq fuel nums index current result h1 h2⟩,
    subsetsList nums, runGenerate_eq nums⟩

/-- Witness for C6 at a concrete mid-recursion state: input `[1, 2]`,
index 1, path buffer `[1]`, one subset already collected. -/
theorem path_buffer_restored_witness :
    (∃ extension, generateSubsets 1 [1, 2] 1 [1] [[]] =
        some ([1], [[]] ++ extension)) ∧
    ∃ r, runGenerate [1, 2] = some ([], r) :=
  path_buffer_restored [1, 2] 1 [1] [[]] 1 (by decide) (by decide)

/-- C7: the program output is exactly the header line `All subsets:`
followed by one line per subset in enumeration order, each line an
opening brace, a space, the elements each followed by a space, and the
closing brace. -/
theorem main_output_format :
    mainOutput =
      "All subsets:\n\x7b \x7d\n\x7b 3 \x7d\n\x7b 2 \x7d\n\x7b 2 3 \x7d\n\x7b 1 \x7d\n\x7b 1 3 \x7d\n\x7b 1 2 \x7d\n\x7b 1 2 3 \x7d\n" := by
  rfl

/-- C8: for every starting index at most `nums.length`, the embedded
recursion succeeds with fuel `nums.length - index` (the recursion
terminates, each call increasing the index by one), and no smaller fuel
succeeds: the recursion depth is exactly `nums.length - index`, so
exactly `n` from the top-level call at index 0. -/
theorem generateSubsets_terminates (nums : List Int) (index : Nat)
    (current : List Int) (result : List (List Int))
    (h : index ≤ nums.length) :
    (generateSubsets (nums.length - index) nums index current result).isSome = true ∧
    ∀ fuel,
      (generateSubsets fuel nums index current result).isSome = true →
      nums.length - index ≤ fuel := by
  constructor
  · rw [generateSubsets_eq (nums.length - index) nums index current result h
      (Nat.le_refl _)]
    rfl
  · intro fuel hf
    by_contra hlt
    rw [generateSubsets_none fuel nums index current result (by omega)] at hf
    simp at hf

/-- Witness for C8 at the concrete input `[1, 2, 3]`, index 1. -/
theorem generateSubsets_terminates_witness :
    (generateSubsets (List.length ([1, 2, 3] : List Int) - 1) [1, 2, 3] 1 [1] []).isSome = true ∧
    ∀ fuel, (generateSubsets fuel [1, 2, 3] 1 [1] []).isSome = true →
      List.length ([1, 2, 3] : List Int) - 1 ≤ fuel :=
  generateSubsets_terminates [1, 2, 3] 1 [1] [] (by decide)

/-- C9: under the precondition `index ≤ nums.length` — which holds at
the initial call and is preserved by every recursive call — the run
returns `some` for every sufficient fuel.  Since an out-of-bounds
`nums[index]?` would propagate `none` to the overall result, this shows
the element access is executed only in bounds: the `none` branch of the
Option-valued access is unreachable. -/
theorem index_access_in_bounds (nums : List Int) (index : Nat)
    (current : List Int) (result : List (List Int)) (fuel : Nat)
    (h1 : index ≤ nums.length) (h2 : nums.length - index ≤ fuel) :
    ∃ out, generateSubsets fuel nums index current result = some out :=
  ⟨_, generateSubsets_eq fuel nums index current result h1 h2⟩

/-- Witness for C9 at the concrete input `[1, 2]`, index 0, fuel 5. -/
theorem index_access_in_bounds_witness :
    ∃ out, generateSubsets 5 [1, 2] 0 [] [] = some out :=
  index_access_in_bounds [1, 2] 0 [] [] 5 (by decide) (by decide)

/-- C10: generation is deterministic — the outcome of a run started
with fresh empty buffers is a function of the input sequence alone,
equal to the closed-form `subsetsList nums`; hence any two such runs on
the same input produce identical result collections in identical
order. -/
theorem generation_deterministic (nums : List Int) :
    runGenerate nums = some ([], subsetsList nums) ∧
    ∀ firstRun secondRun : Option (List Int × List (List Int)),
      runGenerate nums = firstRun → runGenerate nums = secondRun →
      firstRun = secondRun :=
  ⟨runGenerate_eq nums, fun _ _ hf hs => hf ▸ hs ▸ rfl⟩
